import Mathlib

/-!
Verification of `src/CountingNN/metrics.py` (mean Intersection-over-Union
metric).  The numpy/torch arrays are embedded as nested lists of exact
rationals (`ℚ` for floating point data, `ℤ` for integer tensors); the float
literal `1e-10` is modelled as the exact rational `10⁻¹⁰`, and float
arithmetic is modelled exactly.  Fallible numpy/torch operations
(`np.concatenate` of an empty list, `torch.bincount` of negative data, a
failing `reshape`) are modelled with `Option`, `none` standing for a raised
exception.
-/

namespace CountingNN

/-- One pixel of a multi-channel label: the list of its channel values. -/
abbrev Pix : Type := List ℚ

/-- A single (H, W) map of rational values, as rows of pixels. -/
abbrev MatQ : Type := List (List ℚ)

/-- A single (H, W) map of integer values (a torch `.long()` tensor slice). -/
abbrev MatZ : Type := List (List ℤ)

/-- A 3-d array with axes (H, W, C): rows of multi-channel pixels. -/
abbrev Lab3 : Type := List (List Pix)

/-- A 4-d array of rationals; the axis meaning is stated at each use site. -/
abbrev A4 : Type := List (List (List (List ℚ)))

/-- Weighted channel sum of one pixel: the value `Σ_c px[c] * c` that the
loop `for c in range(C): label_ += ilabel[:, :, c] * c` accumulates at a
single spatial position. -/
def pxIdx (px : Pix) : ℚ :=
  (px.enum.map (fun cv => cv.2 * (cv.1 : ℚ))).sum

/-- Inner function `squeeze_channels_` of `squeeze_channels` in
`metrics.py`: collapses an (H, W, C) label to the (H, W) map of weighted
channel sums (the source allocates the result with a leading axis of size 1,
which is consumed by the later `np.concatenate` along axis 0; the leading
axis is left implicit here). -/
def squeeze_channels_ (ilabel : Lab3) : MatQ :=
  ilabel.map (fun row => row.map pxIdx)

/-- Number of distinct values of a map: `len(np.unique(label))`. -/
def uniq (m : MatQ) : ℕ :=
  m.flatten.dedup.length

/-- In-place clipping `label[label > C - 1] = 0` of a squeezed map. -/
def clipMap (C : ℕ) (m : MatQ) : MatQ :=
  m.map (List.map (fun v => if (C : ℚ) - 1 < v then 0 else v))

/-- Function `squeeze_channels` of `metrics.py`, on its multi-channel path
(`labels.shape[-1] != 1`; the `C == 1` branch returns its inputs unchanged,
still 4-d, and is not exercised by the evaluator's multi-channel call).
`C` stands for `labels.shape[-1]`; the images are kept generic since they
are only re-stacked, never transformed.  The final `np.concatenate` of the
two accumulated lists raises when the lists are empty, modelled by `none`. -/
def squeeze_channels (C : ℕ) (images : List α) (labels : List Lab3)
    (clip : Bool) : Option (List α × List MatQ) :=
  let kept : List (α × MatQ) :=
    (labels.zip images).filterMap (fun li =>
      let lbl := squeeze_channels_ li.1
      if clip then some (li.2, clipMap C lbl)
      else if uniq lbl = C then some (li.2, lbl) else none)
  if kept.isEmpty then none
  else some (kept.map Prod.fst, kept.map Prod.snd)

/-- Transpose of a single (C, H, W) image to (H, W, C), the per-image view
of `xarr.transpose(0, 2, 3, 1)`; the dimensions are read off the nested
list as numpy reads them off the array header. -/
def tposeHWC (img : List (List (List ℚ))) : List (List Pix) :=
  (List.range (img.headD []).length).map (fun h =>
    (List.range ((img.headD []).headD []).length).map (fun w =>
      (List.range img.length).map (fun c =>
        ((img.getD c []).getD h []).getD w 0)))

/-- Classmethod `IoU.threshold_` of `metrics.py`: transposes the (N, C, H, W)
input to (N, H, W, C) and applies `cv2.threshold(x, thresh, 1,
cv2.THRESH_BINARY)` to each image, which maps every value strictly greater
than `thresh` to 1 and every other value to 0 (the `x[..., None]` branch
restores the channel axis that cv2 drops for single-channel images, so the
(H, W, C) shape is preserved either way). -/
def threshold_ (xarr : A4) (thresh : ℚ) : A4 :=
  xarr.map (fun x =>
    (tposeHWC x).map (fun row => row.map (fun px => px.map (fun v =>
      if thresh < v then (1 : ℚ) else 0))))

/-- Trailing dimension `x.shape[-1]` of a rectangular 4-d array. -/
def lastDim (x : A4) : ℕ :=
  (((x.headD []).headD []).headD []).length

/-- Conversion of one value by torch `.long()` (truncation toward zero). -/
def toLong (v : ℚ) : ℤ :=
  v.num / (v.den : ℤ)

/-- Conversion of an (H, W) map by `.long()`. -/
def castM (m : MatQ) : MatZ :=
  m.map (List.map toLong)

/-- Conversion of a 3-d array by `.long()`. -/
def cast3 (x : List MatQ) : List MatZ :=
  x.map castM

/-- Constructor `IoU.__init__` of `metrics.py` with `activation=False`
(the softmax/sigmoid activation is declared out of scope by the spec and
involves transcendental functions outside this rational embedding), on the
multi-channel branch `pred.ndim == 4 and pred.shape[-1] > 1` taken after
thresholding: predictions are thresholded, `squeeze_channels(true, pred,
clip=True)` is invoked, and both results are cast with `.long()`.  The
single-channel branch (which stores the still 4-d thresholded predictions)
is outside this model and is mapped to `none`. -/
def iou_init_mc (tr : A4) (pr : A4) (thresh : ℚ) :
    Option (List (List MatZ) × List MatZ) :=
  let prt := threshold_ pr thresh
  if 1 < lastDim prt then
    match squeeze_channels (lastDim prt) tr prt true with
    | none => none
    | some (trk, prk) => some (trk.map cast3, prk.map castM)
  else none

/-- Mask predicate `(true >= 0) & (true < self.nb_classes)`. -/
def inRange (nb : ℕ) (v : ℤ) : Bool :=
  decide (0 ≤ v) && decide (v < (nb : ℤ))

/-- Flat indices `self.nb_classes * true[mask] + pred[mask]` of one pair. -/
def flatOf (nb : ℕ) (t p : List ℤ) : List ℤ :=
  (((t.zip p).filter (fun x => inRange nb x.1)).map
    (fun x => (nb : ℤ) * x.1 + x.2))

/-- Method `IoU.compute_hist` of `metrics.py` for one flattened pair:
masks positions with an in-range true value, forms the flat indices
`nb * t + p`, bincounts them with `minlength = nb ** 2` and reshapes to an
`nb × nb` matrix (returned as the counting function of the reshaped
matrix, `fun i j => counts[nb * i + j]`, cast to float).  `none` models a
raised exception: a boolean mask whose shape differs from `pred`'s, a
negative bincount input, or a bincount longer than `nb ** 2` that cannot
be reshaped to `nb × nb`. -/
def compute_hist (nb : ℕ) (t p : List ℤ) : Option (ℕ → ℕ → ℚ) :=
  if t.length = p.length then
    let flat := flatOf nb t p
    if flat.all (fun v => decide (0 ≤ v) && decide (v < ((nb : ℕ) ^ 2 : ℤ)))
    then some (fun i j => ((flat.count ((nb : ℤ) * i + j) : ℕ) : ℚ))
    else none
  else none

/-- Accumulation loop of `IoU.evaluate`: `hist` starts at zero and each
pair's `compute_hist` is added; the first raised exception aborts the
loop (`none`).  The loop is written as structural recursion over the two
batches; the summands are the same as the source's left-to-right `+=`,
reassociated (rational addition is commutative and associative). -/
def accumHist (nb : ℕ) : List (List ℤ) → List (List ℤ) → Option (ℕ → ℕ → ℚ)
  | t :: tr, p :: pr =>
    match compute_hist nb t p, accumHist nb tr pr with
    | some h, some H => some (fun i j => h i j + H i j)
    | _, _ => none
  | _, _ => some (fun _ _ => 0)

/-- Epsilon `1e-10` of `IoU.evaluate`, as an exact rational. -/
def eps : ℚ := 1 / 10 ^ 10

/-- Per-class Jaccard entry `A_inter_B / (A + B - A_inter_B + 1e-10)` of
`IoU.evaluate`: `A` is the row sum (`dim=1`), `B` the column sum
(`dim=0`), `A_inter_B` the diagonal entry. -/
def jcdF (nb : ℕ) (H : ℕ → ℕ → ℚ) (i : ℕ) : ℚ :=
  H i i /
    ((∑ j ∈ Finset.range nb, H i j) + (∑ j ∈ Finset.range nb, H j i)
      - H i i + eps)

/-- Method `IoU.evaluate` of `metrics.py`: flattens each stored (H, W)
image, accumulates the confusion histogram over the batch, forms the
per-class Jaccard vector and returns `torch.mean(jcd[jcd == jcd])` — the
mean over the entries kept by the self-equality (NaN) filter.  `none`
models an exception raised inside the accumulation loop. -/
def evaluate (nb : ℕ) (tr pr : List MatZ) : Option ℚ :=
  match accumHist nb (tr.map List.flatten) (pr.map List.flatten) with
  | none => none
  | some H =>
    let keep := (Finset.range nb).filter (fun i => jcdF nb H i = jcdF nb H i)
    some ((∑ i ∈ keep, jcdF nb H i) / keep.card)

/-- Accumulated histogram with a zero default, for stating entry-level
facts about a successful accumulation. -/
def histD (nb : ℕ) (tr pr : List (List ℤ)) : ℕ → ℕ → ℚ :=
  (accumHist nb tr pr).getD (fun _ _ => 0)

/-- Element access `x[a][b][c][d]` of a 4-d array (0 outside the array). -/
def get4 (x : A4) (a b c d : ℕ) : ℚ :=
  (((x.getD a []).getD b []).getD c []).getD d 0

/-- Rectangularity of a 4-d array with dims (N, C, H, W): the property a
nested list must satisfy to denote a numpy array of that shape. -/
def rect4 (N C H W : ℕ) (x : A4) : Prop :=
  x.length = N ∧ ∀ img ∈ x, img.length = C ∧
    ∀ ch ∈ img, ch.length = H ∧ ∀ row ∈ ch, row.length = W

/-- All values of a 4-d array are 0 or 1. -/
def binary4 (x : A4) : Prop :=
  ∀ a ∈ x, ∀ b ∈ a, ∀ r ∈ b, ∀ v ∈ r, v = 0 ∨ v = 1

instance (N C H W : ℕ) (x : A4) : Decidable (rect4 N C H W x) := by
  unfold rect4; infer_instance

instance (x : A4) : Decidable (binary4 x) := by
  unfold binary4; infer_instance

/-- Number of positions of one flattened true image whose value is an
in-range class index. -/
def validCount (nb : ℕ) (t : List ℤ) : ℕ :=
  (t.filter (inRange nb)).length

/-- All flat indices produced over a batch, in order: the data whose
counting function is the accumulated histogram. -/
def flatsOf (nb : ℕ) (tr pr : List (List ℤ)) : List ℤ :=
  ((tr.zip pr).map (fun x => flatOf nb x.1 x.2)).flatten

/-! Helper lemmas about list indexing. -/

lemma getD_map_range (f : ℕ → β) (n k : ℕ) (h : k < n) (d : β) :
    ((List.range n).map f).getD k d = f k := by
  rw [List.getD_eq_getElem?_getD, List.getElem?_map, List.getElem?_range h]
  rfl

lemma getD_map_of_lt (f : α → β) (l : List α) (n : ℕ) (hn : n < l.length)
    (d : β) (e : α) : (l.map f).getD n d = f (l.getD n e) := by
  rw [List.getD_eq_getElem?_getD, List.getElem?_map,
    List.getElem?_eq_getElem hn, List.getD_eq_getElem l e hn]
  rfl

lemma getD_mem_or_eq (l : List α) (n : ℕ) (d : α) :
    l.getD n d ∈ l ∨ l.getD n d = d := by
  by_cases h : n < l.length
  · left
    rw [List.getD_eq_getElem l d h]
    exact l.getElem_mem h
  · right
    rw [List.getD_eq_getElem?_getD, List.getElem?_eq_none (by omega)]
    rfl

lemma filterMap_guard (p : α → Prop) [DecidablePred p] (f : α → β)
    (l : List α) :
    (l.filterMap (fun x => if p x then some (f x) else none)) =
      (l.filter (fun x => decide (p x))).map f := by
  induction l with
  | nil => rfl
  | cons a t ih =>
    by_cases h : p a <;>
      simp [List.filterMap_cons, List.filter_cons, h, ih]

lemma tposeHWC_eq (C H W : ℕ) (img : List (List (List ℚ)))
    (hC0 : 0 < C) (hC : img.length = C)
    (hch : ∀ ch ∈ img, ch.length = H ∧ ∀ row ∈ ch, row.length = W) :
    tposeHWC img = (List.range H).map (fun h =>
      (List.range W).map (fun w => (List.range C).map (fun c =>
        ((img.getD c []).getD h []).getD w 0))) := by
  cases img with
  | nil => simp at hC; omega
  | cons ch0 rest =>
    have h1 : ch0.length = H := (hch ch0 (List.mem_cons_self ch0 rest)).1
    unfold tposeHWC
    rw [List.headD_cons, h1, hC]
    by_cases hH0 : H = 0
    · subst hH0; simp
    · cases ch0 with
      | nil => simp at h1; omega
      | cons row0 rows =>
        have h2 : row0.length = W :=
          (hch (row0 :: rows) (List.mem_cons_self _ rest)).2 row0
            (List.mem_cons_self row0 rows)
        rw [List.headD_cons, h2]

lemma get4_binary (x : A4) (hb : binary4 x) (a b c d : ℕ) :
    get4 x a b c d = 0 ∨ get4 x a b c d = 1 := by
  unfold get4
  rcases getD_mem_or_eq x a [] with h1 | h1
  · rcases getD_mem_or_eq (x.getD a []) b [] with h2 | h2
    · rcases getD_mem_or_eq ((x.getD a []).getD b []) c [] with h3 | h3
      · rcases getD_mem_or_eq (((x.getD a []).getD b []).getD c []) d 0
          with h4 | h4
        · exact hb _ h1 _ h2 _ h3 _ h4
        · left; exact h4
      · rw [h3]; left; rfl
    · rw [h2]; left; rfl
  · rw [h1]; left; rfl

/-- Elementwise description of `threshold_` on a rectangular (N, C, H, W)
array: the output at transposed position (n, h, w, c) is 1 when the input
at (n, c, h, w) is strictly above the threshold and 0 otherwise. -/
lemma threshold_get4 (N C H W : ℕ) (x : A4) (th : ℚ)
    (hr : rect4 N C H W x) (n c h w : ℕ)
    (hn : n < N) (hc : c < C) (hh : h < H) (hw : w < W) :
    get4 (threshold_ x th) n h w c =
      if th < get4 x n c h w then 1 else 0 := by
  obtain ⟨hxl, hrest⟩ := hr
  have hn' : n < x.length := by omega
  have himg : x.getD n [] ∈ x := by
    rw [List.getD_eq_getElem x [] hn']
    exact x.getElem_mem hn'
  obtain ⟨hC, hch⟩ := hrest _ himg
  unfold threshold_ get4
  rw [getD_map_of_lt _ x n hn' [] []]
  rw [tposeHWC_eq C H W _ (by omega) hC hch]
  rw [List.map_map, getD_map_range _ H h hh]
  simp only [Function.comp_apply]
  rw [List.map_map, getD_map_range _ W w hw]
  simp only [Function.comp_apply]
  rw [List.map_map, getD_map_range _ C c hc]
  rfl

/-! Structure of `squeeze_channels` on each of its two validity policies. -/

lemma isEmpty_map (f : α → β) (l : List α) : (l.map f).isEmpty = l.isEmpty := by
  cases l <;> rfl

lemma squeeze_channels_clip_eq (C : ℕ) (images : List α) (labels : List Lab3) :
    squeeze_channels C images labels true =
      (if (labels.zip images).isEmpty then none
       else some ((labels.zip images).map Prod.snd,
         (labels.zip images).map
           (fun li => clipMap C (squeeze_channels_ li.1)))) := by
  unfold squeeze_channels
  simp only [if_true]
  rw [show (fun (li : Lab3 × α) =>
      some (li.2, clipMap C (squeeze_channels_ li.1))) =
      (some ∘ fun li => (li.2, clipMap C (squeeze_channels_ li.1))) from rfl,
    List.filterMap_eq_map]
  simp only [List.map_map, isEmpty_map]
  rfl

lemma squeeze_channels_noclip_eq (C : ℕ) (images : List α)
    (labels : List Lab3) :
    squeeze_channels C images labels false =
      (if ((labels.zip images).filter
          (fun li => decide (uniq (squeeze_channels_ li.1) = C))).isEmpty
       then none
       else some (((labels.zip images).filter
           (fun li => decide (uniq (squeeze_channels_ li.1) = C))).map
             Prod.snd,
         ((labels.zip images).filter
           (fun li => decide (uniq (squeeze_channels_ li.1) = C))).map
             (fun li => squeeze_channels_ li.1))) := by
  unfold squeeze_channels
  simp only [Bool.false_eq_true, if_false]
  rw [filterMap_guard (fun li => uniq (squeeze_channels_ li.1) = C)
    (fun li => (li.2, squeeze_channels_ li.1)) (labels.zip images)]
  simp only [List.map_map, isEmpty_map]
  rfl

/-- C6: `IoU.threshold_` maps each pixel value, per channel independently,
to 1 if the value is strictly greater than `thresh` and to 0 otherwise
(the output holding that decision at the transposed position (n, h, w, c)
of the input position (n, c, h, w)). -/
theorem threshold_strict_binarization (N C H W : ℕ) (x : A4) (th : ℚ)
    (hr : rect4 N C H W x) (n c h w : ℕ)
    (hn : n < N) (hc : c < C) (hh : h < H) (hw : w < W) :
    get4 (threshold_ x th) n h w c =
      if th < get4 x n c h w then 1 else 0 :=
  threshold_get4 N C H W x th hr n c h w hn hc hh hw

/-- Witness for C6 at the concrete input [[[[3/4]]]] with threshold 1/2. -/
theorem threshold_strict_binarization_witness :
    rect4 1 1 1 1 [[[[(3 : ℚ)/4]]]] ∧
      get4 (threshold_ [[[[(3 : ℚ)/4]]]] (1/2)) 0 0 0 0 =
        if (1 : ℚ)/2 < get4 [[[[(3 : ℚ)/4]]]] 0 0 0 0 then 1 else 0 :=
  ⟨by decide, threshold_strict_binarization 1 1 1 1 [[[[(3 : ℚ)/4]]]] (1/2)
    (by decide) 0 0 0 0 (by decide) (by decide) (by decide) (by decide)⟩

/-- C5 counterexample: the binary (1, 2, 1, 1) array [[[[0]], [[1]]]] is not
returned unchanged by `threshold_` at `thresh = 1/2`: the result is the
(1, 1, 1, 2) transposed array [[[[0, 1]]]], so the shape and axis layout
change even though the values survive. -/
theorem threshold_on_binary_not_identity :
    threshold_ [[[[0]], [[1]]]] (1/2) ≠ [[[[0]], [[1]]]] := by
  intro h
  have h2 := congrArg (fun l : A4 => (l.headD []).length) h
  simp [threshold_, tposeHWC] at h2

/-- C5 amended: on a rectangular binary (N, C, H, W) array, thresholding at
1/2 preserves every value but permutes the axes to (N, H, W, C): the output
at (n, h, w, c) equals the input at (n, c, h, w). -/
theorem threshold_binary_preserves_values_transposed (N C H W : ℕ) (x : A4)
    (hr : rect4 N C H W x) (hb : binary4 x) (n c h w : ℕ)
    (hn : n < N) (hc : c < C) (hh : h < H) (hw : w < W) :
    get4 (threshold_ x (1/2)) n h w c = get4 x n c h w := by
  rw [threshold_get4 N C H W x (1/2) hr n c h w hn hc hh hw]
  rcases get4_binary x hb n c h w with h0 | h0 <;> rw [h0] <;> norm_num

/-- Witness for the amended C5 at the binary array [[[[0]], [[1]]]]. -/
theorem threshold_binary_preserves_values_transposed_witness :
    rect4 1 2 1 1 [[[[(0 : ℚ)]], [[1]]]] ∧ binary4 [[[[(0 : ℚ)]], [[1]]]] ∧
      get4 (threshold_ [[[[(0 : ℚ)]], [[1]]]] (1/2)) 0 0 0 1 =
        get4 [[[[(0 : ℚ)]], [[1]]]] 0 1 0 0 :=
  ⟨by decide, by decide,
    threshold_binary_preserves_values_transposed 1 2 1 1 [[[[(0 : ℚ)]], [[1]]]]
      (by decide) (by decide) 0 1 0 0
      (by decide) (by decide) (by decide) (by decide)⟩

/-- C7: with `clip=False` on a multi-channel input, a successful
`squeeze_channels` keeps an image/label pair exactly when the number of
distinct values of its squeezed index map equals `C`, drops all other
pairs, preserves the original relative order (the output is the filtered
sublist of the zipped input) and returns at most as many pairs as it was
given. -/
theorem squeeze_noclip_keeps_exactly_full {α : Type} (C : ℕ)
    (images : List α) (labels : List Lab3) (hC : 1 < C)
    (is : List α) (ls : List MatQ)
    (h : squeeze_channels C images labels false = some (is, ls)) :
    is = ((labels.zip images).filter
        (fun li => decide (uniq (squeeze_channels_ li.1) = C))).map Prod.snd ∧
    ls = ((labels.zip images).filter
        (fun li => decide (uniq (squeeze_channels_ li.1) = C))).map
          (fun li => squeeze_channels_ li.1) ∧
    is.length = ls.length ∧ is.length ≤ images.length := by
  rw [squeeze_channels_noclip_eq] at h
  by_cases he : ((labels.zip images).filter
      (fun li => decide (uniq (squeeze_channels_ li.1) = C))).isEmpty
  · rw [if_pos he] at h; exact absurd h (by simp)
  · rw [if_neg he] at h
    obtain ⟨h1, h2⟩ := Prod.mk.injEq .. ▸ Option.some.injEq .. ▸ h
    refine ⟨h1.symm, h2.symm, ?_, ?_⟩
    · rw [← h1, ← h2]; simp
    · rw [← h1]
      calc (((labels.zip images).filter _).map Prod.snd).length
          ≤ (labels.zip images).length := by
            rw [List.length_map]; exact List.length_filter_le _ _
        _ ≤ images.length := by rw [List.length_zip]; omega

/-- Witness for C7: a batch of one pair whose squeezed map has exactly
`C = 2` distinct values, so the pair is kept. -/
theorem squeeze_noclip_keeps_exactly_full_witness :
    squeeze_channels 2 [(7 : ℕ)] [[[[0, 1], [1, 0]]]] false =
        some ([7], [[[1, 0]]]) ∧
      ([7] : List ℕ) = ((([[[[0, 1], [1, 0]]]] : List Lab3).zip
          [(7 : ℕ)]).filter
          (fun li => decide (uniq (squeeze_channels_ li.1) = 2))).map
          Prod.snd := by
  have hs : squeeze_channels 2 [(7 : ℕ)] [[[[0, 1], [1, 0]]]] false =
      some ([7], [[[1, 0]]]) := by
    norm_num [squeeze_channels, squeeze_channels_, pxIdx, uniq,
      List.enum, List.enumFrom, List.dedup, List.filterMap_cons]
  exact ⟨hs, (squeeze_noclip_keeps_exactly_full 2 [(7 : ℕ)]
    [[[[0, 1], [1, 0]]]] (by norm_num) [7] [[[1, 0]]] hs).1⟩

/-- C8 counterexample: for the empty multi-channel batch (a (0, H, W, 2)
labels array together with an empty images array) `squeeze_channels` with
`clip=True` raises on the empty `np.concatenate` instead of returning the
(empty) batch, so the output batch size does not always equal the input
batch size. -/
theorem squeeze_clip_empty_input_raises :
    squeeze_channels 2 ([] : List ℕ) ([] : List Lab3) true = none := by
  rfl

/-- C8 amended: for every NON-EMPTY multi-channel input with matching batch
sizes, `squeeze_channels` with `clip=True` forces every squeezed index value
strictly greater than `C - 1` to 0, keeps every image/label pair, and the
output batch size equals the input batch size (the empty batch instead
raises on the empty concatenation). -/
theorem squeeze_clip_keeps_all {α : Type} (C : ℕ) (images : List α)
    (labels : List Lab3) (hC : 1 < C) (hne : labels ≠ [])
    (hlen : images.length = labels.length) :
    squeeze_channels C images labels true =
        some (images, labels.map (fun l => (squeeze_channels_ l).map
          (List.map (fun v => if (C : ℚ) - 1 < v then 0 else v)))) ∧
      (labels.map (fun l => (squeeze_channels_ l).map
          (List.map (fun v => if (C : ℚ) - 1 < v then 0 else v)))).length =
        labels.length := by
  have hzl : (labels.zip images).length = labels.length := by
    rw [List.length_zip]; omega
  constructor
  · rw [squeeze_channels_clip_eq]
    have hzne : ¬ (labels.zip images).isEmpty := by
      rw [List.isEmpty_iff_length_eq_zero, hzl]
      intro h0
      exact hne (List.length_eq_zero.mp h0)
    rw [if_neg hzne]
    congr 1
    refine Prod.ext ?_ ?_
    · exact List.map_snd_zip labels images (by omega)
    · show (labels.zip images).map
          ((fun l => clipMap C (squeeze_channels_ l)) ∘ Prod.fst) = _
      rw [← List.map_map, List.map_fst_zip labels images (by omega)]
      rfl
  · rw [List.length_map]

/-- Witness for the amended C8, at a three-channel batch of one pair: pixel
[0, 1, 1] squeezes to 0*0 + 1*1 + 1*2 = 3 > C - 1 = 2 and is clipped. -/
theorem squeeze_clip_keeps_all_witness :
    (([[[[0, 1, 1], [0, 0, 1]]]] : List Lab3) ≠ []) ∧
      [(7 : ℕ)].length = ([[[[0, 1, 1], [0, 0, 1]]]] : List Lab3).length ∧
      squeeze_channels 3 [(7 : ℕ)] [[[[0, 1, 1], [0, 0, 1]]]] true =
        some ([7], ([[[[0, 1, 1], [0, 0, 1]]]] : List Lab3).map
          (fun l => (squeeze_channels_ l).map
            (List.map (fun v => if ((3 : ℕ) : ℚ) - 1 < v then 0 else v)))) :=
  ⟨by decide, by decide,
    (squeeze_clip_keeps_all 3 [(7 : ℕ)] [[[[0, 1, 1], [0, 0, 1]]]]
      (by norm_num) (by decide) (by decide)).1⟩

/-- C9: with `clip=False` on a multi-channel input in which no image/label
pair passes the all-classes-present filter, `squeeze_channels` raises (the
empty `np.concatenate`) instead of returning a result. -/
theorem squeeze_noclip_all_filtered_raises {α : Type} (C : ℕ)
    (images : List α) (labels : List Lab3) (hC : 1 < C)
    (h : ∀ li ∈ labels.zip images, ¬ uniq (squeeze_channels_ li.1) = C) :
    squeeze_channels C images labels false = none := by
  rw [squeeze_channels_noclip_eq]
  have hf : ((labels.zip images).filter
      (fun li => decide (uniq (squeeze_channels_ li.1) = C))) = [] := by
    rw [List.filter_eq_nil_iff]
    intro li hli
    simpa using h li hli
  rw [if_pos (by rw [hf]; rfl)]

/-- Witness for C9: a single pair whose squeezed map has one distinct value
while `C = 2`, so nothing is kept and the call raises. -/
theorem squeeze_noclip_all_filtered_raises_witness :
    (∀ li ∈ ([[[[1, 1]]]] : List Lab3).zip [(0 : ℕ)],
        ¬ uniq (squeeze_channels_ li.1) = 2) ∧
      squeeze_channels 2 [(0 : ℕ)] [[[[1, 1]]]] false = none := by
  have h : ∀ li ∈ ([[[[1, 1]]]] : List Lab3).zip [(0 : ℕ)],
      ¬ uniq (squeeze_channels_ li.1) = 2 := by
    norm_num [uniq, squeeze_channels_, pxIdx, List.enum, List.enumFrom,
      List.dedup]
  exact ⟨h, squeeze_noclip_all_filtered_raises 2 [(0 : ℕ)] [[[[1, 1]]]]
    (by norm_num) h⟩

/-! Helper lemmas for the confusion-histogram layer. -/

lemma inRange_iff (nb : ℕ) (v : ℤ) :
    inRange nb v = true ↔ 0 ≤ v ∧ v < (nb : ℤ) := by
  simp [inRange]

lemma compute_hist_eq_some (nb : ℕ) (t p : List ℤ)
    (hlen : t.length = p.length)
    (hok : ∀ v ∈ flatOf nb t p, 0 ≤ v ∧ v < ((nb : ℕ) ^ 2 : ℤ)) :
    compute_hist nb t p =
      some (fun (i j : ℕ) => ((flatOf nb t p).count ((nb : ℤ) * i + j) : ℚ)) := by
  have hall : (flatOf nb t p).all
      (fun v => decide (0 ≤ v) && decide (v < ((nb : ℕ) ^ 2 : ℤ))) = true := by
    rw [List.all_eq_true]
    intro v hv
    have h := hok v hv
    simp [h.1, h.2]
  simp only [compute_hist]
  rw [if_pos hlen, if_pos hall]

lemma compute_hist_some_inv (nb : ℕ) (t p : List ℤ) (H : ℕ → ℕ → ℚ)
    (h : compute_hist nb t p = some H) :
    t.length = p.length ∧
      (∀ v ∈ flatOf nb t p, 0 ≤ v ∧ v < ((nb : ℕ) ^ 2 : ℤ)) ∧
      H = fun (i j : ℕ) => ((flatOf nb t p).count ((nb : ℤ) * i + j) : ℚ) := by
  simp only [compute_hist] at h
  split_ifs at h with h1 h2
  · refine ⟨h1, ?_, (Option.some.inj h).symm⟩
    intro v hv
    have := List.all_eq_true.mp h2 v hv
    simpa using this

lemma accumHist_eq_some (nb : ℕ) (tr pr : List (List ℤ))
    (h : ∀ x ∈ tr.zip pr, (compute_hist nb x.1 x.2).isSome = true) :
    accumHist nb tr pr =
      some (fun (i j : ℕ) => ((flatsOf nb tr pr).count ((nb : ℤ) * i + j) : ℚ)) := by
  induction tr generalizing pr with
  | nil =>
    cases pr with
    | nil =>
      show some (fun (_ _ : ℕ) => (0 : ℚ)) = _
      congr 1
    | cons p ps =>
      show some (fun (_ _ : ℕ) => (0 : ℚ)) = _
      congr 1
  | cons t tr ih =>
    cases pr with
    | nil =>
      show some (fun (_ _ : ℕ) => (0 : ℚ)) = _
      congr 1
    | cons p ps =>
      have hx : (compute_hist nb t p).isSome = true :=
        h (t, p) (by simp [List.zip_cons_cons])
      obtain ⟨h0, hh0⟩ := Option.isSome_iff_exists.mp hx
      have hrest : ∀ x ∈ tr.zip ps, (compute_hist nb x.1 x.2).isSome = true :=
        fun x hxm =>
          h x (by rw [List.zip_cons_cons]; exact List.mem_cons_of_mem _ hxm)
      have ihh := ih ps hrest
      have hform := (compute_hist_some_inv nb t p h0 hh0).2.2
      show (match compute_hist nb t p, accumHist nb tr ps with
        | some h, some H => some (fun i j => h i j + H i j)
        | _, _ => none) = _
      rw [hh0, ihh]
      show some _ = some _
      congr 1; funext i j
      rw [hform]
      show ((flatOf nb t p).count _ : ℚ) + _ = _
      rw [show flatsOf nb (t :: tr) (p :: ps) =
        flatOf nb t p ++ flatsOf nb tr ps from rfl, List.count_append,
        Nat.cast_add]

lemma accumHist_some_inv (nb : ℕ) (tr pr : List (List ℤ)) (H : ℕ → ℕ → ℚ)
    (h : accumHist nb tr pr = some H) :
    ∀ x ∈ tr.zip pr, (compute_hist nb x.1 x.2).isSome = true := by
  induction tr generalizing pr H with
  | nil => intro x hx; simp at hx
  | cons t tr ih =>
    cases pr with
    | nil => intro x hx; simp at hx
    | cons p ps =>
      have hmatch : (match compute_hist nb t p, accumHist nb tr ps with
          | some h, some H => some (fun i j => h i j + H i j)
          | _, _ => none) = some H := h
      cases hcp : compute_hist nb t p with
      | none => rw [hcp] at hmatch; exact absurd hmatch (by simp)
      | some h0 =>
        cases hah : accumHist nb tr ps with
        | none => rw [hcp, hah] at hmatch; exact absurd hmatch (by simp)
        | some H0 =>
          intro x hx
          rw [List.zip_cons_cons] at hx
          rcases List.mem_cons.mp hx with rfl | hx2
          · rw [hcp]; rfl
          · exact ih ps H0 hah x hx2

lemma accumHist_some_form (nb : ℕ) (tr pr : List (List ℤ)) (H : ℕ → ℕ → ℚ)
    (h : accumHist nb tr pr = some H) :
    H = fun (i j : ℕ) => ((flatsOf nb tr pr).count ((nb : ℤ) * i + j) : ℚ) := by
  have h2 := accumHist_eq_some nb tr pr (accumHist_some_inv nb tr pr H h)
  rw [h] at h2
  exact Option.some.inj h2

lemma flat_decomp_unique (nb : ℕ) (tv pv : ℤ) (i j : ℕ)
    (htv0 : 0 ≤ tv) (htv1 : tv < (nb : ℤ))
    (hpv0 : 0 ≤ pv) (hpv1 : pv < (nb : ℤ)) (hj : j < nb)
    (heq : (nb : ℤ) * tv + pv = (nb : ℤ) * i + j) : tv = i ∧ pv = j := by
  have hjn : (j : ℤ) < (nb : ℤ) := by exact_mod_cast hj
  have hj0 : (0 : ℤ) ≤ (j : ℤ) := Int.natCast_nonneg j
  have h1 : tv = (i : ℤ) := by
    by_contra hne
    rcases lt_or_gt_of_ne hne with hlt | hgt
    · have h2 : tv + 1 ≤ (i : ℤ) := hlt
      have h3 : (nb : ℤ) * (tv + 1) ≤ (nb : ℤ) * i :=
        mul_le_mul_of_nonneg_left h2 (Int.natCast_nonneg nb)
      nlinarith
    · have h2 : (i : ℤ) + 1 ≤ tv := hgt
      have h3 : (nb : ℤ) * ((i : ℤ) + 1) ≤ (nb : ℤ) * tv :=
        mul_le_mul_of_nonneg_left h2 (Int.natCast_nonneg nb)
      nlinarith
  exact ⟨h1, by rw [h1] at heq; linarith⟩

lemma sum_indicator_flat (nb : ℕ) (a : ℤ) (ha0 : 0 ≤ a)
    (ha1 : a < ((nb : ℕ) ^ 2 : ℤ)) :
    (∑ i ∈ Finset.range nb, ∑ j ∈ Finset.range nb,
      if a = (nb : ℤ) * i + j then (1 : ℕ) else 0) = 1 := by
  have hnb : 0 < nb := by
    by_contra h0
    have : nb = 0 := by omega
    subst this
    simp at ha1
    omega
  have hnbz : (0 : ℤ) < (nb : ℤ) := by exact_mod_cast hnb
  have hm0 : 0 ≤ a % (nb : ℤ) := Int.emod_nonneg a (ne_of_gt hnbz)
  have hm1 : a % (nb : ℤ) < (nb : ℤ) := Int.emod_lt_of_pos a hnbz
  have hq0 : 0 ≤ a / (nb : ℤ) := Int.ediv_nonneg ha0 (le_of_lt hnbz)
  have hq1 : a / (nb : ℤ) < (nb : ℤ) := by
    by_contra hge
    push_neg at hge
    have h2 : (nb : ℤ) * (nb : ℤ) ≤ (nb : ℤ) * (a / (nb : ℤ)) :=
      mul_le_mul_of_nonneg_left hge (le_of_lt hnbz)
    have h3 := Int.ediv_add_emod a (nb : ℤ)
    have h4 : a < ((nb : ℤ)) ^ 2 := ha1
    nlinarith
  set q := (a / (nb : ℤ)).toNat with hqdef
  set r := (a % (nb : ℤ)).toNat with hrdef
  have hqc : (q : ℤ) = a / (nb : ℤ) := Int.toNat_of_nonneg hq0
  have hrc : (r : ℤ) = a % (nb : ℤ) := Int.toNat_of_nonneg hm0
  have hqlt : q < nb := by
    have : (q : ℤ) < (nb : ℤ) := by rw [hqc]; exact hq1
    exact_mod_cast this
  have hrlt : r < nb := by
    have : (r : ℤ) < (nb : ℤ) := by rw [hrc]; exact hm1
    exact_mod_cast this
  have hdecomp : a = (nb : ℤ) * q + r := by
    rw [hqc, hrc]
    have := Int.ediv_add_emod a (nb : ℤ)
    linarith
  have key : ∀ i ∈ Finset.range nb, ∀ j ∈ Finset.range nb,
      (a = (nb : ℤ) * i + j) ↔ (i = q ∧ j = r) := by
    intro i hi j hj
    rw [Finset.mem_range] at hi hj
    constructor
    · intro he
      have heq2 : (nb : ℤ) * (q : ℤ) + (r : ℤ) = (nb : ℤ) * i + j := by
        rw [← hdecomp]; exact he
      have := flat_decomp_unique nb (q : ℤ) (r : ℤ) i j
        (Int.natCast_nonneg q) (by exact_mod_cast hqlt)
        (Int.natCast_nonneg r) (by exact_mod_cast hrlt) hj heq2
      constructor
      · exact_mod_cast this.1.symm
      · exact_mod_cast this.2.symm
    · rintro ⟨rfl, rfl⟩
      exact hdecomp
  rw [Finset.sum_congr rfl (fun i hi => Finset.sum_congr rfl
    (fun j hj => if_congr (key i hi j hj) rfl rfl))]
  have hinner : ∀ i ∈ Finset.range nb,
      (∑ j ∈ Finset.range nb, if i = q ∧ j = r then (1 : ℕ) else 0) =
        if i = q then 1 else 0 := by
    intro i hi
    by_cases hiq : i = q
    · subst hiq
      simp only [eq_self_iff_true, true_and, if_true]
      rw [Finset.sum_ite_eq' (Finset.range nb) r (fun _ => 1)]
      rw [if_pos (Finset.mem_range.mpr hrlt)]
    · simp [hiq]
  rw [Finset.sum_congr rfl hinner]
  rw [Finset.sum_ite_eq' (Finset.range nb) q (fun _ => 1)]
  rw [if_pos (Finset.mem_range.mpr hqlt)]

lemma sum_count_flat (nb : ℕ) (F : List ℤ)
    (hF : ∀ v ∈ F, 0 ≤ v ∧ v < ((nb : ℕ) ^ 2 : ℤ)) :
    (∑ i ∈ Finset.range nb, ∑ j ∈ Finset.range nb,
      F.count ((nb : ℤ) * i + j)) = F.length := by
  induction F with
  | nil => simp
  | cons a F ih =>
    have ha := hF a (List.mem_cons_self a F)
    have ih2 := ih (fun v hv => hF v (List.mem_cons_of_mem a hv))
    simp only [List.count_cons, beq_iff_eq]
    simp only [Finset.sum_add_distrib]
    rw [ih2, sum_indicator_flat nb a ha.1 ha.2]
    simp

lemma flatOf_bounds_of_pred_in_range (nb : ℕ) (t p : List ℤ)
    (hpre : ∀ x ∈ t.zip p, 0 ≤ x.1 ∧ x.1 < (nb : ℤ) →
      0 ≤ x.2 ∧ x.2 < (nb : ℤ)) :
    ∀ v ∈ flatOf nb t p, 0 ≤ v ∧ v < ((nb : ℕ) ^ 2 : ℤ) := by
  intro v hv
  unfold flatOf at hv
  rw [List.mem_map] at hv
  obtain ⟨x, hxf, rfl⟩ := hv
  rw [List.mem_filter] at hxf
  obtain ⟨hxz, hxr⟩ := hxf
  have ht := (inRange_iff nb x.1).mp hxr
  have hp := hpre x hxz ht
  have h1 : (nb : ℤ) * (x.1 + 1) ≤ (nb : ℤ) * (nb : ℤ) :=
    mul_le_mul_of_nonneg_left (by omega) (Int.natCast_nonneg nb)
  constructor
  · have : 0 ≤ (nb : ℤ) * x.1 :=
      mul_nonneg (Int.natCast_nonneg nb) ht.1
    omega
  · nlinarith

/-- C10: `compute_hist` is total exactly under the precondition that every
predicted value at a position whose true value is in `[0, nb)` itself lies
in `[0, nb)` (given the equal flattened lengths the mask indexing needs);
and at the concrete input `nb = 2`, `t = [0]`, `p = [5]` the flat index 5
reaches `nb ** 2 = 4`, the bincount is longer than `nb ** 2`, and the
reshape raises instead of the position being excluded. -/
theorem compute_hist_total_iff_pred_in_range :
    (∀ (nb : ℕ) (t p : List ℤ), t.length = p.length →
      (∀ x ∈ t.zip p, 0 ≤ x.1 ∧ x.1 < (nb : ℤ) →
        0 ≤ x.2 ∧ x.2 < (nb : ℤ)) →
      (compute_hist nb t p).isSome = true) ∧
    compute_hist 2 [0] [5] = none := by
  constructor
  · intro nb t p hlen hpre
    rw [compute_hist_eq_some nb t p hlen
      (flatOf_bounds_of_pred_in_range nb t p hpre)]
    rfl
  · rfl

/-- Witness for C10 at an input satisfying the precondition. -/
theorem compute_hist_total_iff_pred_in_range_witness :
    ([(0 : ℤ)].length = [(1 : ℤ)].length) ∧
      (∀ x ∈ [(0 : ℤ)].zip [(1 : ℤ)], 0 ≤ x.1 ∧ x.1 < (2 : ℤ) →
        0 ≤ x.2 ∧ x.2 < (2 : ℤ)) ∧
      (compute_hist 2 [0] [1]).isSome = true :=
  ⟨rfl, by decide,
    compute_hist_total_iff_pred_in_range.1 2 [0] [1] rfl (by decide)⟩

/-- C4: whenever the accumulation over a batch succeeds (the situation in
which `evaluate` gets to use the histogram), every entry of the accumulated
confusion histogram is non-negative and the entries sum to the number of
pixel positions across the batch whose true value is an in-range class
index. -/
theorem hist_nonneg_and_total (nb : ℕ) (tr pr : List MatZ)
    (hs : (accumHist nb (tr.map List.flatten)
      (pr.map List.flatten)).isSome = true)
    (hN : tr.length = pr.length) :
    (∀ i j, 0 ≤ histD nb (tr.map List.flatten) (pr.map List.flatten) i j) ∧
    (∑ i ∈ Finset.range nb, ∑ j ∈ Finset.range nb,
        histD nb (tr.map List.flatten) (pr.map List.flatten) i j) =
      ((tr.map (fun m => validCount nb m.flatten)).sum : ℚ) := by
  obtain ⟨H, hH⟩ := Option.isSome_iff_exists.mp hs
  have hform := accumHist_some_form nb _ _ H hH
  have hDH : histD nb (tr.map List.flatten) (pr.map List.flatten) = H := by
    unfold histD
    rw [hH]
    rfl
  have hpair := accumHist_some_inv nb _ _ H hH
  constructor
  · intro i j
    rw [hDH, hform]
    exact Nat.cast_nonneg _
  · rw [hDH, hform]
    have hFb : ∀ v ∈ flatsOf nb (tr.map List.flatten) (pr.map List.flatten),
        0 ≤ v ∧ v < ((nb : ℕ) ^ 2 : ℤ) := by
      intro v hv
      unfold flatsOf at hv
      rw [List.mem_flatten] at hv
      obtain ⟨l, hl, hvl⟩ := hv
      rw [List.mem_map] at hl
      obtain ⟨x, hx, rfl⟩ := hl
      obtain ⟨Hx, hHx⟩ := Option.isSome_iff_exists.mp (hpair x hx)
      exact (compute_hist_some_inv nb x.1 x.2 Hx hHx).2.1 v hvl
    have hcast : (∑ i ∈ Finset.range nb, ∑ j ∈ Finset.range nb,
        ((flatsOf nb (tr.map List.flatten) (pr.map List.flatten)).count
          ((nb : ℤ) * i + j) : ℚ)) =
        ((∑ i ∈ Finset.range nb, ∑ j ∈ Finset.range nb,
          (flatsOf nb (tr.map List.flatten) (pr.map List.flatten)).count
            ((nb : ℤ) * i + j) : ℕ) : ℚ) := by
      push_cast
      rfl
    rw [hcast, sum_count_flat nb _ hFb]
    congr 1
    unfold flatsOf
    rw [List.length_flatten, List.map_map]
    have hlen_eq : ((tr.map List.flatten).zip (pr.map List.flatten)).map
        (List.length ∘ fun x => flatOf nb x.1 x.2) =
        ((tr.map List.flatten).zip (pr.map List.flatten)).map
          (fun x => validCount nb x.1) := by
      apply List.map_congr_left
      intro x hx
      obtain ⟨Hx, hHx⟩ := Option.isSome_iff_exists.mp (hpair x hx)
      have hxl := (compute_hist_some_inv nb x.1 x.2 Hx hHx).1
      show (flatOf nb x.1 x.2).length = _
      unfold flatOf validCount
      rw [List.length_map]
      conv_rhs => rw [← List.map_fst_zip x.1 x.2 (le_of_eq hxl)]
      rw [List.filter_map, List.length_map]
      rfl
    rw [hlen_eq]
    have hzip : ((tr.map List.flatten).zip (pr.map List.flatten)).map
        (fun x => validCount nb x.1) =
        ((tr.map List.flatten).map (fun t => validCount nb t)) := by
      have h1 : ((tr.map List.flatten).zip (pr.map List.flatten)).map
          (fun x => validCount nb x.1) =
          (((tr.map List.flatten).zip (pr.map List.flatten)).map
            Prod.fst).map (fun t => validCount nb t) := by
        rw [List.map_map]
        rfl
      rw [h1, List.map_fst_zip _ _ (by
        rw [List.length_map, List.length_map]; omega)]
    rw [hzip, List.map_map]
    rfl

/-- Witness for C4 at a concrete one-image batch. -/
theorem hist_nonneg_and_total_witness :
    ((accumHist 2 (([[[0]]] : List MatZ).map List.flatten)
        (([[[0]]] : List MatZ).map List.flatten)).isSome = true) ∧
      ([[[0]]] : List MatZ).length = ([[[0]]] : List MatZ).length ∧
      (∀ i j, 0 ≤ histD 2 (([[[0]]] : List MatZ).map List.flatten)
        (([[[0]]] : List MatZ).map List.flatten) i j) :=
  ⟨by decide, rfl,
    (hist_nonneg_and_total 2 [[[0]]] [[[0]]] (by decide) rfl).1⟩

/-! Helper lemmas for the Jaccard/mean layer of `evaluate`. -/

lemma eps_pos : 0 < eps := by norm_num [eps]

lemma eps_lt_one : eps < 1 := by norm_num [eps]

lemma evaluate_eq_of_accum (nb : ℕ) (tr pr : List MatZ) (H : ℕ → ℕ → ℚ)
    (h : accumHist nb (tr.map List.flatten) (pr.map List.flatten) = some H) :
    evaluate nb tr pr =
      some ((∑ i ∈ Finset.range nb, jcdF nb H i) / nb) := by
  unfold evaluate
  rw [h]
  have hk : (Finset.range nb).filter (fun i => jcdF nb H i = jcdF nb H i) =
      Finset.range nb := Finset.filter_true_of_mem (fun i _ => rfl)
  show some _ = some _
  rw [hk, Finset.card_range]

lemma zip_self (l : List α) : l.zip l = l.map (fun a => (a, a)) := by
  induction l with
  | nil => rfl
  | cons a t ih => rw [List.zip_cons_cons, List.map_cons, ih]

lemma flatOf_self (nb : ℕ) (t : List ℤ) :
    flatOf nb t t =
      (t.filter (inRange nb)).map (fun v => (nb : ℤ) * v + v) := by
  unfold flatOf
  rw [zip_self, List.filter_map, List.map_map]
  rfl

lemma flatsOf_self (nb : ℕ) (tf : List (List ℤ)) :
    flatsOf nb tf tf =
      ((tf.map (fun t => t.filter (inRange nb))).flatten).map
        (fun v => (nb : ℤ) * v + v) := by
  unfold flatsOf
  rw [zip_self, List.map_map]
  have h1 : ((fun x : List ℤ × List ℤ => flatOf nb x.1 x.2) ∘
      (fun a => (a, a))) =
      fun t : List ℤ => (t.filter (inRange nb)).map
        (fun v => (nb : ℤ) * v + v) := by
    funext t
    exact flatOf_self nb t
  rw [h1]
  rw [show (fun t : List ℤ => (t.filter (inRange nb)).map
      (fun v => (nb : ℤ) * v + v)) =
      (List.map (fun v => (nb : ℤ) * v + v)) ∘
        (fun t : List ℤ => t.filter (inRange nb)) from rfl]
  rw [← List.map_map, ← List.map_flatten]

lemma count_map_diag (nb : ℕ) (l : List ℤ)
    (hl : ∀ v ∈ l, 0 ≤ v ∧ v < (nb : ℤ)) (i j : ℕ) (hj : j < nb) :
    ((l.map (fun v => (nb : ℤ) * v + v)).count ((nb : ℤ) * i + j)) =
      if i = j then l.count (i : ℤ) else 0 := by
  induction l with
  | nil => simp
  | cons a l ih =>
    have ha := hl a (List.mem_cons_self a l)
    have ih2 := ih (fun v hv => hl v (List.mem_cons_of_mem a hv))
    simp only [List.map_cons, List.count_cons, beq_iff_eq]
    rw [ih2]
    by_cases hij : i = j
    · subst hij
      simp only [if_pos rfl]
      congr 1
      by_cases hai : a = (i : ℤ)
      · simp [hai]
      · rw [if_neg, if_neg hai]
        intro he
        have := flat_decomp_unique nb a a i i ha.1 ha.2 ha.1 ha.2 hj he
        exact hai this.1
    · rw [if_neg hij, if_neg hij]
      rw [if_neg, add_zero]
      intro he
      have := flat_decomp_unique nb a a i j ha.1 ha.2 ha.1 ha.2 hj he
      exact hij (by omega)

lemma maskedAll_bounds (nb : ℕ) (tf : List (List ℤ)) :
    ∀ v ∈ (tf.map (fun t => t.filter (inRange nb))).flatten,
      0 ≤ v ∧ v < (nb : ℤ) := by
  intro v hv
  rw [List.mem_flatten] at hv
  obtain ⟨l, hl, hvl⟩ := hv
  rw [List.mem_map] at hl
  obtain ⟨t, ht, rfl⟩ := hl
  exact (inRange_iff nb v).mp (List.of_mem_filter hvl)

lemma compute_hist_self_isSome (nb : ℕ) (tf : List (List ℤ)) :
    ∀ x ∈ tf.zip tf, (compute_hist nb x.1 x.2).isSome = true := by
  intro x hx
  rw [zip_self, List.mem_map] at hx
  obtain ⟨t, ht, rfl⟩ := hx
  rw [compute_hist_eq_some nb t t rfl ?hok]
  · rfl
  case hok =>
    intro v hv
    rw [flatOf_self, List.mem_map] at hv
    obtain ⟨w, hw, rfl⟩ := hv
    have hb := (inRange_iff nb w).mp (List.of_mem_filter hw)
    have h1 : (nb : ℤ) * (w + 1) ≤ (nb : ℤ) * (nb : ℤ) :=
      mul_le_mul_of_nonneg_left (by omega) (Int.natCast_nonneg nb)
    have h2 : 0 ≤ (nb : ℤ) * w := mul_nonneg (Int.natCast_nonneg nb) hb.1
    constructor
    · omega
    · nlinarith

/-- Value of each per-class Jaccard entry when `pred = true`: writing
`d i` for the number of masked pixels of class `i` across the batch, the
histogram is diagonal and entry `i` equals `d i / (d i + eps)`. -/
lemma jcdF_self_eq (nb : ℕ) (tf : List (List ℤ)) (i : ℕ) (hi : i < nb) :
    jcdF nb (fun a b : ℕ =>
        ((flatsOf nb tf tf).count ((nb : ℤ) * a + b) : ℚ)) i =
      (((tf.map (fun t => t.filter (inRange nb))).flatten.count (i : ℤ) : ℚ)) /
        (((tf.map (fun t => t.filter (inRange nb))).flatten.count
          (i : ℤ) : ℚ) + eps) := by
  set L := (tf.map (fun t => t.filter (inRange nb))).flatten with hL
  have hLb := maskedAll_bounds nb tf
  have hcount : ∀ a b : ℕ, b < nb →
      ((flatsOf nb tf tf).count ((nb : ℤ) * a + b) : ℚ) =
        if a = b then (L.count (a : ℤ) : ℚ) else 0 := by
    intro a b hb
    rw [flatsOf_self, ← hL, count_map_diag nb L hLb a b hb]
    by_cases hab : a = b
    · rw [if_pos hab, if_pos hab]
    · rw [if_neg hab, if_neg hab, Nat.cast_zero]
  unfold jcdF
  simp only []
  have hdiag : ((flatsOf nb tf tf).count ((nb : ℤ) * i + i) : ℚ) =
      (L.count (i : ℤ) : ℚ) := by
    rw [hcount i i hi, if_pos rfl]
  have hrow : (∑ j ∈ Finset.range nb,
      ((flatsOf nb tf tf).count ((nb : ℤ) * i + j) : ℚ)) =
      (L.count (i : ℤ) : ℚ) := by
    rw [Finset.sum_congr rfl (fun j hj =>
      hcount i j (Finset.mem_range.mp hj))]
    rw [Finset.sum_ite_eq (Finset.range nb) i
      (fun _ => (L.count (i : ℤ) : ℚ))]
    rw [if_pos (Finset.mem_range.mpr hi)]
  have hcol : (∑ j ∈ Finset.range nb,
      ((flatsOf nb tf tf).count ((nb : ℤ) * j + i) : ℚ)) =
      (L.count (i : ℤ) : ℚ) := by
    rw [Finset.sum_congr rfl (fun j hj => hcount j i hi)]
    rw [Finset.sum_ite_eq' (Finset.range nb) i
      (fun j => (L.count (j : ℤ) : ℚ))]
    rw [if_pos (Finset.mem_range.mpr hi)]
  rw [hdiag, hrow, hcol]
  congr 1
  ring

/-- C2 amended: if the stored pred equals the stored true at every pixel
and every class `0 .. nb-1` actually occurs in the stored true, then
`evaluate` returns a Mean IoU strictly between `1 - 1e-10` and 1 — close
to, but (in exact arithmetic) never equal to, 1.0, because each per-class
entry is `d / (d + 1e-10)`; in float32, where `d + 1e-10` rounds to `d`,
this value rounds to exactly 1.0. -/
theorem evaluate_perfect_close_to_one (nb : ℕ) (tr : List MatZ)
    (hnb : 0 < nb)
    (hall : ∀ c < nb, ∃ m ∈ tr, ∃ row ∈ m, (c : ℤ) ∈ row) :
    ∃ r, evaluate nb tr tr = some r ∧ 1 - eps < r ∧ r < 1 := by
  set tf := tr.map List.flatten with htf
  have hacc := accumHist_eq_some nb tf tf (compute_hist_self_isSome nb tf)
  have heval := evaluate_eq_of_accum nb tr tr _ hacc
  set L := (tf.map (fun t => t.filter (inRange nb))).flatten with hL
  have hd1 : ∀ c < nb, (1 : ℚ) ≤ (L.count (c : ℤ) : ℚ) := by
    intro c hc
    obtain ⟨m, hm, row, hrow, hcm⟩ := hall c hc
    have hmem : (c : ℤ) ∈ L := by
      rw [hL, List.mem_flatten]
      refine ⟨m.flatten.filter (inRange nb), ?_, ?_⟩
      · rw [List.mem_map]
        exact ⟨m.flatten, List.mem_map_of_mem List.flatten hm, rfl⟩
      · rw [List.mem_filter]
        refine ⟨List.mem_flatten.mpr ⟨row, hrow, hcm⟩, ?_⟩
        rw [inRange_iff]
        constructor
        · exact Int.natCast_nonneg c
        · exact_mod_cast hc
    have := List.count_pos_iff.mpr hmem
    exact_mod_cast this
  have hbound : ∀ i ∈ Finset.range nb,
      (1 - eps < jcdF nb (fun a b : ℕ =>
          ((flatsOf nb tf tf).count ((nb : ℤ) * a + b) : ℚ)) i ∧
        jcdF nb (fun a b : ℕ =>
          ((flatsOf nb tf tf).count ((nb : ℤ) * a + b) : ℚ)) i < 1) := by
    intro i hi
    rw [Finset.mem_range] at hi
    rw [jcdF_self_eq nb tf i hi]
    set d := (L.count (i : ℤ) : ℚ) with hdd
    have hd := hd1 i hi
    have hden : 0 < d + eps := by linarith [eps_pos]
    constructor
    · rw [lt_div_iff₀ hden]
      nlinarith [eps_pos, eps_lt_one]
    · rw [div_lt_one hden]
      linarith [eps_pos]
  set S := ∑ i ∈ Finset.range nb, jcdF nb (fun a b : ℕ =>
    ((flatsOf nb tf tf).count ((nb : ℤ) * a + b) : ℚ)) i with hS
  have hne : (Finset.range nb).Nonempty := by
    rw [Finset.nonempty_range_iff]
    omega
  have hS1 : (nb : ℚ) * (1 - eps) < S := by
    have := Finset.sum_lt_sum_of_nonempty hne
      (fun i hi => (hbound i hi).1)
    calc (nb : ℚ) * (1 - eps)
        = ∑ _i ∈ Finset.range nb, (1 - eps) := by
          rw [Finset.sum_const, Finset.card_range, nsmul_eq_mul]
      _ < S := this
  have hS2 : S < (nb : ℚ) := by
    have := Finset.sum_lt_sum_of_nonempty hne
      (fun i hi => (hbound i hi).2)
    calc S < ∑ _i ∈ Finset.range nb, (1 : ℚ) := this
      _ = (nb : ℚ) := by
          rw [Finset.sum_const, Finset.card_range, nsmul_eq_mul, mul_one]
  have hnbQ : (0 : ℚ) < (nb : ℚ) := by exact_mod_cast hnb
  refine ⟨S / nb, heval, ?_, ?_⟩
  · have h2 : ((nb : ℚ) * (1 - eps)) / nb < S / nb :=
      (div_lt_div_iff_of_pos_right hnbQ).mpr hS1
    rwa [mul_div_cancel_left₀ _ (ne_of_gt hnbQ)] at h2
  · have h2 : S / nb < (nb : ℚ) / nb :=
      (div_lt_div_iff_of_pos_right hnbQ).mpr hS2
    rwa [div_self (ne_of_gt hnbQ)] at h2

/-- Witness for the amended C2: one image holding both classes of a
two-class problem, predicted perfectly. -/
theorem evaluate_perfect_close_to_one_witness :
    0 < 2 ∧ (∀ c : ℕ, c < 2 → ∃ m ∈ ([[[0, 1]]] : List MatZ), ∃ row ∈ m,
        (c : ℤ) ∈ row) ∧
      ∃ r, evaluate 2 [[[0, 1]]] [[[0, 1]]] = some r ∧
        1 - eps < r ∧ r < 1 :=
  ⟨by decide, by decide,
    evaluate_perfect_close_to_one 2 [[[0, 1]]] (by decide) (by decide)⟩

/-- Concrete evaluation of the one-pixel perfect-prediction batch with
`nb = 2`: only class 0 occurs; its Jaccard entry is `1 / (1 + eps)`, the
entry of the absent class 1 is 0 (not NaN), and the returned mean divides
by both classes. -/
lemma evaluate_single_zero_case :
    evaluate 2 [[[0]]] [[[0]]] = some ((1 / (1 + eps)) / 2) ∧
    jcdF 2 (histD 2 (([[[0]]] : List MatZ).map List.flatten)
        (([[[0]]] : List MatZ).map List.flatten)) 0 = 1 / (1 + eps) ∧
    jcdF 2 (histD 2 (([[[0]]] : List MatZ).map List.flatten)
        (([[[0]]] : List MatZ).map List.flatten)) 1 = 0 := by
  have hflat : flatsOf 2 [[0]] [[0]] = [0] := rfl
  have hacc : accumHist 2 (([[[0]]] : List MatZ).map List.flatten)
      (([[[0]]] : List MatZ).map List.flatten) =
      some (fun (i j : ℕ) =>
        ((flatsOf 2 [[0]] [[0]]).count ((2 : ℤ) * i + j) : ℚ)) :=
    accumHist_eq_some 2 [[0]] [[0]] (by decide)
  have hist_eq : histD 2 (([[[0]]] : List MatZ).map List.flatten)
      (([[[0]]] : List MatZ).map List.flatten) =
      fun (i j : ℕ) =>
        ((flatsOf 2 [[0]] [[0]]).count ((2 : ℤ) * i + j) : ℚ) := by
    unfold histD
    rw [hacc]
    rfl
  have hcnt : ∀ x : ℤ, ((flatsOf 2 [[0]] [[0]]).count x : ℚ) =
      if x = 0 then 1 else 0 := by
    intro x
    rw [hflat]
    by_cases hx : x = 0
    · subst hx
      norm_num
    · rw [if_neg hx, List.count_singleton']
      rw [if_neg (by simpa [eq_comm] using hx)]
      norm_num
  have hj0 : jcdF 2 (fun (i j : ℕ) =>
      ((flatsOf 2 [[0]] [[0]]).count ((2 : ℤ) * i + j) : ℚ)) 0 =
      1 / (1 + eps) := by
    unfold jcdF
    simp only [Finset.sum_range_succ, Finset.sum_range_zero]
    simp only [hcnt]
    norm_num
  have hj1 : jcdF 2 (fun (i j : ℕ) =>
      ((flatsOf 2 [[0]] [[0]]).count ((2 : ℤ) * i + j) : ℚ)) 1 = 0 := by
    unfold jcdF
    simp only []
    rw [show ((flatsOf 2 [[0]] [[0]]).count ((2 : ℤ) * (1 : ℕ) + (1 : ℕ)) :
      ℚ) = 0 from by rw [hcnt]; norm_num]
    exact zero_div _
  refine ⟨?_, ?_, ?_⟩
  · rw [evaluate_eq_of_accum 2 [[[0]]] [[[0]]] _ hacc]
    congr 1
    rw [Finset.sum_range_succ, Finset.sum_range_succ,
      Finset.sum_range_zero, hj0, hj1]
    norm_num
  · rw [hist_eq]
    exact hj0
  · rw [hist_eq]
    exact hj1

/-- C2 counterexample: a batch whose stored pred equals the stored true at
every pixel (one image, one pixel of class 0, `nb = 2`) yet `evaluate` does
not return 1.0 — the absent class 1 contributes a zero entry (`0 / eps`)
that is averaged in, giving `(1 / (1 + eps)) / 2` (about 0.5). -/
theorem evaluate_perfect_not_one :
    evaluate 2 [[[0]]] [[[0]]] ≠ some 1 := by
  rw [evaluate_single_zero_case.1]
  intro h
  have h2 := Option.some.inj h
  have hden : (0 : ℚ) < 1 + eps := by linarith [eps_pos]
  have hne : (1 : ℚ) + eps ≠ 0 := ne_of_gt hden
  field_simp at h2
  linarith [eps_pos]

/-- C3 counterexample: for the same batch the degenerate class 1 (absent
from both maps) yields the entry 0, not NaN, and that entry is NOT excluded
from the mean: the result is half of the class-0 entry, not the class-0
entry alone as the claimed NaN-exclusion would give. -/
theorem evaluate_degenerate_not_excluded :
    evaluate 2 [[[0]]] [[[0]]] ≠
      some (jcdF 2 (histD 2 (([[[0]]] : List MatZ).map List.flatten)
        (([[[0]]] : List MatZ).map List.flatten)) 0) := by
  rw [evaluate_single_zero_case.1, evaluate_single_zero_case.2.1]
  intro h
  have h2 := Option.some.inj h
  have hden : (0 : ℚ) < 1 + eps := by linarith [eps_pos]
  have hd : (0 : ℚ) < 1 / (1 + eps) := by positivity
  linarith

lemma count_flats_zero_absent_row (nb : ℕ) (tf pf : List (List ℤ))
    (c j : ℕ) (hj : j < nb)
    (hp : ∀ x ∈ tf.zip pf, ∀ v ∈ x.2, 0 ≤ v ∧ v < (nb : ℤ))
    (ht : ∀ t ∈ tf, (c : ℤ) ∉ t) :
    (flatsOf nb tf pf).count ((nb : ℤ) * c + j) = 0 := by
  rw [List.count_eq_zero]
  intro hmem
  unfold flatsOf at hmem
  rw [List.mem_flatten] at hmem
  obtain ⟨l, hl, hvl⟩ := hmem
  rw [List.mem_map] at hl
  obtain ⟨x, hx, rfl⟩ := hl
  unfold flatOf at hvl
  rw [List.mem_map] at hvl
  obtain ⟨y, hyf, hye⟩ := hvl
  rw [List.mem_filter] at hyf
  obtain ⟨hyz, hyr⟩ := hyf
  have hb := (inRange_iff nb y.1).mp hyr
  have hpb := hp x hx y.2 (List.of_mem_zip hyz).2
  have hu := flat_decomp_unique nb y.1 y.2 c j hb.1 hb.2 hpb.1 hpb.2 hj hye
  exact (ht x.1 (List.of_mem_zip hx).1) (hu.1 ▸ (List.of_mem_zip hyz).1)

/-- C3 amended: a class `c` that never appears in the stored true nor in
the stored pred (whose values are in range) yields the per-class entry 0 —
not NaN — in the Jaccard vector, and the self-equality filter keeps every
entry, so `evaluate` averages over all `nb` classes (it never returns
NaN). -/
theorem evaluate_absent_class_zero_entry_included (nb : ℕ)
    (tr pr : List MatZ) (c : ℕ) (hc : c < nb)
    (hs : (accumHist nb (tr.map List.flatten)
      (pr.map List.flatten)).isSome = true)
    (hp : ∀ m ∈ pr, ∀ row ∈ m, ∀ v ∈ row, 0 ≤ v ∧ v < (nb : ℤ))
    (habsT : ∀ m ∈ tr, ∀ row ∈ m, (c : ℤ) ∉ row) :
    jcdF nb (histD nb (tr.map List.flatten) (pr.map List.flatten)) c = 0 ∧
    evaluate nb tr pr = some ((∑ i ∈ Finset.range nb,
      jcdF nb (histD nb (tr.map List.flatten)
        (pr.map List.flatten)) i) / nb) := by
  obtain ⟨H, hH⟩ := Option.isSome_iff_exists.mp hs
  have hform := accumHist_some_form nb _ _ H hH
  have hDH : histD nb (tr.map List.flatten) (pr.map List.flatten) = H := by
    unfold histD
    rw [hH]
    rfl
  have hpz : ∀ x ∈ (tr.map List.flatten).zip (pr.map List.flatten),
      ∀ v ∈ x.2, 0 ≤ v ∧ v < (nb : ℤ) := by
    intro x hx v hv
    have h2 := (List.of_mem_zip hx).2
    rw [List.mem_map] at h2
    obtain ⟨m, hm, he⟩ := h2
    rw [← he, List.mem_flatten] at hv
    obtain ⟨row, hrow, hvr⟩ := hv
    exact hp m hm row hrow v hvr
  have htz : ∀ t ∈ tr.map List.flatten, (c : ℤ) ∉ t := by
    intro t ht hct
    rw [List.mem_map] at ht
    obtain ⟨m, hm, he⟩ := ht
    rw [← he, List.mem_flatten] at hct
    obtain ⟨row, hrow, hcr⟩ := hct
    exact habsT m hm row hrow hcr
  constructor
  · rw [hDH, hform]
    unfold jcdF
    simp only []
    rw [show ((flatsOf nb (tr.map List.flatten)
        (pr.map List.flatten)).count ((nb : ℤ) * c + c) : ℚ) = 0 from by
      rw [count_flats_zero_absent_row nb _ _ c c hc hpz htz]
      exact Nat.cast_zero]
    exact zero_div _
  · rw [hDH]
    exact evaluate_eq_of_accum nb tr pr H hH

/-- Witness for the amended C3: class 1 is absent from the one-image batch
of class-0 pixels. -/
theorem evaluate_absent_class_zero_entry_included_witness :
    (1 < 2) ∧
      ((accumHist 2 (([[[0]]] : List MatZ).map List.flatten)
        (([[[0]]] : List MatZ).map List.flatten)).isSome = true) ∧
      (∀ m ∈ ([[[0]]] : List MatZ), ∀ row ∈ m, ∀ v ∈ row,
        0 ≤ v ∧ v < (2 : ℤ)) ∧
      (∀ m ∈ ([[[0]]] : List MatZ), ∀ row ∈ m, ((1 : ℕ) : ℤ) ∉ row) ∧
      jcdF 2 (histD 2 (([[[0]]] : List MatZ).map List.flatten)
        (([[[0]]] : List MatZ).map List.flatten)) 1 = 0 :=
  ⟨by decide, by decide, by decide, by decide,
    (evaluate_absent_class_zero_entry_included 2 [[[0]]] [[[0]]] 1
      (by decide) (by decide) (by decide) (by decide)).1⟩

/-! Helper lemmas for the Evaluator construction (C1). -/

lemma threshold_values_binary (pr : A4) (th : ℚ) :
    ∀ lbl ∈ threshold_ pr th, ∀ row ∈ lbl, ∀ px ∈ row, ∀ v ∈ px,
      v = 0 ∨ v = 1 := by
  intro lbl hlbl row hrow px hpx v hv
  unfold threshold_ at hlbl
  rw [List.mem_map] at hlbl
  obtain ⟨x, _, rfl⟩ := hlbl
  rw [List.mem_map] at hrow
  obtain ⟨row0, _, rfl⟩ := hrow
  rw [List.mem_map] at hpx
  obtain ⟨px0, _, rfl⟩ := hpx
  rw [List.mem_map] at hv
  obtain ⟨v0, _, rfl⟩ := hv
  by_cases h : th < v0
  · right; rw [if_pos h]
  · left; rw [if_neg h]

lemma enumFrom_sum_nat (l : List ℚ) (k : ℕ)
    (hb : ∀ v ∈ l, v = 0 ∨ v = 1) :
    ∃ n : ℕ, ((l.enumFrom k).map (fun cv => cv.2 * (cv.1 : ℚ))).sum = n := by
  induction l generalizing k with
  | nil => exact ⟨0, by simp⟩
  | cons a t ih =>
    obtain ⟨n, hn⟩ := ih (k + 1) (fun v hv => hb v (List.mem_cons_of_mem a hv))
    rcases hb a (List.mem_cons_self a t) with h0 | h1
    · refine ⟨n, ?_⟩
      rw [List.enumFrom_cons, List.map_cons, List.sum_cons, hn, h0]
      simp
    · refine ⟨k + n, ?_⟩
      rw [List.enumFrom_cons, List.map_cons, List.sum_cons, hn, h1]
      push_cast
      ring

lemma pxIdx_nat_of_binary (px : Pix) (hb : ∀ v ∈ px, v = 0 ∨ v = 1) :
    ∃ n : ℕ, pxIdx px = n :=
  enumFrom_sum_nat px 0 hb

lemma toLong_natCast (n : ℕ) : toLong ((n : ℕ) : ℚ) = n := by
  unfold toLong
  rw [Rat.num_natCast, Rat.den_natCast]
  simp

lemma clip_value_bound (C : ℕ) (hC : 1 ≤ C) (v : ℚ)
    (hv : ∃ n : ℕ, v = n) :
    ∃ m : ℕ, (if (C : ℚ) - 1 < v then 0 else v) = (m : ℚ) ∧ m ≤ C - 1 := by
  obtain ⟨n, rfl⟩ := hv
  have hcast : ((C - 1 : ℕ) : ℚ) = (C : ℚ) - 1 := by
    rw [Nat.cast_sub hC, Nat.cast_one]
  by_cases h : (C : ℚ) - 1 < n
  · exact ⟨0, by rw [if_pos h]; norm_num, by omega⟩
  · refine ⟨n, by rw [if_neg h], ?_⟩
    push_neg at h
    rw [← hcast] at h
    exact_mod_cast h

lemma stored_pred_value_bound (C : ℕ) (hC : 1 ≤ C) (lbl : Lab3)
    (hb : ∀ row ∈ lbl, ∀ px ∈ row, ∀ v ∈ px, v = 0 ∨ v = 1) :
    ∀ row ∈ castM (clipMap C (squeeze_channels_ lbl)), ∀ v ∈ row,
      0 ≤ v ∧ v ≤ (C : ℤ) - 1 := by
  intro row hrow v hv
  unfold castM at hrow
  rw [List.mem_map] at hrow
  obtain ⟨row1, hrow1, rfl⟩ := hrow
  rw [List.mem_map] at hv
  obtain ⟨w, hw, rfl⟩ := hv
  unfold clipMap at hrow1
  rw [List.mem_map] at hrow1
  obtain ⟨row2, hrow2, rfl⟩ := hrow1
  rw [List.mem_map] at hw
  obtain ⟨u, hu, rfl⟩ := hw
  unfold squeeze_channels_ at hrow2
  rw [List.mem_map] at hrow2
  obtain ⟨row3, hrow3, rfl⟩ := hrow2
  rw [List.mem_map] at hu
  obtain ⟨px, hpx, rfl⟩ := hu
  obtain ⟨m, hm, hmle⟩ := clip_value_bound C hC (pxIdx px)
    (pxIdx_nat_of_binary px (hb row3 hrow3 px hpx))
  rw [hm, toLong_natCast]
  refine ⟨Int.natCast_nonneg m, ?_⟩
  have h2 : (m : ℤ) ≤ ((C - 1 : ℕ) : ℤ) := by exact_mod_cast hmle
  omega

/-- C1 amended: on the multi-channel branch (thresholded predictions with a
trailing channel dimension greater than 1), the Evaluator does invoke the
Label Normalizer on `(true, pred)` with `clip=True`, and the stored PRED is
a single-channel class-index map (a (batch, height, width) array of integer
class indices in `[0, C)`); the stored TRUE, however, is NOT normalized: it
is passed through the Label Normalizer as the re-stacked `images` argument
and stored with its original shape and values (only cast to integer). -/
theorem iou_init_squeezes_pred_only (tr pr : A4) (th : ℚ)
    (t : List (List MatZ)) (p : List MatZ)
    (hlen : tr.length = pr.length)
    (h : iou_init_mc tr pr th = some (t, p)) :
    (∃ q, squeeze_channels (lastDim (threshold_ pr th)) tr
        (threshold_ pr th) true = some (tr, q) ∧
      t = tr.map cast3 ∧ p = q.map castM) ∧
    (∀ img ∈ p, ∀ row ∈ img, ∀ v ∈ row,
      0 ≤ v ∧ v ≤ (lastDim (threshold_ pr th) : ℤ) - 1) := by
  simp only [iou_init_mc] at h
  split_ifs at h with hguard
  · cases hsq : squeeze_channels (lastDim (threshold_ pr th)) tr
        (threshold_ pr th) true with
    | none => rw [hsq] at h; exact absurd h (by simp)
    | some tp =>
      obtain ⟨trk, prk⟩ := tp
      rw [hsq] at h
      have h2 := Option.some.inj h
      have ht2 : t = trk.map cast3 := (congrArg Prod.fst h2).symm
      have hp2 : p = prk.map castM := (congrArg Prod.snd h2).symm
      have hclip := hsq
      rw [squeeze_channels_clip_eq] at hclip
      split_ifs at hclip with hemp
      have h3 := Option.some.inj hclip
      have hlen2 : tr.length ≤ (threshold_ pr th).length := by
        unfold threshold_
        rw [List.length_map]
        omega
      injection h3 with htrk0 hprk0
      have htrk : trk = tr := by
        rw [← htrk0, List.map_snd_zip _ _ hlen2]
      have hprk : prk = ((threshold_ pr th).zip tr).map
          (fun li => clipMap (lastDim (threshold_ pr th))
            (squeeze_channels_ li.1)) := hprk0.symm
      constructor
      · refine ⟨prk, ?_, ?_, hp2⟩
        · rw [← htrk]
        · rw [ht2, htrk]
      · intro img himg row hrow v hv
        rw [hp2, List.mem_map] at himg
        obtain ⟨pm, hpm, rfl⟩ := himg
        rw [hprk, List.mem_map] at hpm
        obtain ⟨li, hli, rfl⟩ := hpm
        have hbin := threshold_values_binary pr th li.1
          (List.of_mem_zip hli).1
        exact stored_pred_value_bound (lastDim (threshold_ pr th))
          (by omega) li.1 hbin row hrow v hv

/-- Shared concrete run of the Evaluator construction: a two-channel true
array with values 5 and 7 (shape (1, 2, 1, 1)) and a two-channel
prediction; after thresholding, pred is squeezed to the class-index map
[[[0]]], while the stored true keeps both channels and its values. -/
lemma iou_init_concrete :
    iou_init_mc [[[[5]], [[7]]]] [[[[1]], [[0]]]] (1/2) =
      some ([[[[5]], [[7]]]], [[[0]]]) := by
  norm_num [iou_init_mc, threshold_, tposeHWC, lastDim, squeeze_channels,
    squeeze_channels_, pxIdx, clipMap, castM, cast3, toLong,
    List.enum, List.enumFrom, List.filterMap_cons, List.range_succ]

/-- C1 counterexample: at this construction input the Label Normalizer is
invoked with `clip=True`, and the stored pred is the single-channel
class-index map [[[0]]]; but the stored true is NOT a single-channel
class-index map: it still has its two channels (and the raw values 5 and
7), refuting "both the stored true and the stored pred are single-channel
class-index maps". -/
theorem iou_init_true_not_single_channel :
    iou_init_mc [[[[5]], [[7]]]] [[[[1]], [[0]]]] (1/2) =
        some ([[[[5]], [[7]]]], [[[0]]]) ∧
      (([[[[(5 : ℤ)]], [[7]]]] : List (List MatZ)).headD []).length ≠ 1 :=
  ⟨iou_init_concrete, by decide⟩

/-- Witness for the amended C1 at the same construction input. -/
theorem iou_init_squeezes_pred_only_witness :
    ([[[[(5 : ℚ)]], [[7]]]] : A4).length =
        ([[[[(1 : ℚ)]], [[0]]]] : A4).length ∧
      iou_init_mc [[[[5]], [[7]]]] [[[[1]], [[0]]]] (1/2) =
        some ([[[[5]], [[7]]]], [[[0]]]) ∧
      (∃ q, squeeze_channels
          (lastDim (threshold_ [[[[1]], [[0]]]] (1/2)))
          ([[[[(5 : ℚ)]], [[7]]]] : A4)
          (threshold_ [[[[1]], [[0]]]] (1/2)) true =
            some ([[[[(5 : ℚ)]], [[7]]]], q) ∧
        ([[[[(5 : ℤ)]], [[7]]]] : List (List MatZ)) =
          ([[[[(5 : ℚ)]], [[7]]]] : A4).map cast3 ∧
        ([[[0]]] : List MatZ) = q.map castM) :=
  ⟨rfl, iou_init_concrete,
    (iou_init_squeezes_pred_only [[[[5]], [[7]]]] [[[[1]], [[0]]]] (1/2)
      [[[[5]], [[7]]]] [[[0]]] rfl iou_init_concrete).1⟩

end CountingNN
